import Mathlib

/-!
# gitlab-ci-verify: shell script check and pipeline message parsing

A shallow embedding of

* `pkg/checks/shellcheck_scripts_check.go` (`ShellScriptCheck.shellcheckLevelToSeverity`,
  `ShellScriptCheck.Run`),
* `internal/shellcheck/main.go` (`NewShellChecker`),
* `pkg/gitlab/api/pipeline_message_parse.go` (`ParsePipelineMessage`),

followed by theorems about them.

Conventions of the embedding.

* A Go `string` is a Lean `String`. Go indexes strings by byte, Lean by character; the only
  indices the embedded code computes are the length of the literal `"jobs:"` and positions of
  the one-byte separators `' '` and `':'`, so slicing at the character position cuts the text
  at the same place as slicing at the byte position.
* A Go `int` is a Lean `Int`. The only arithmetic performed is `f.Line - 1`; where it would
  wrap around in 64 bits (`f.Line` the least `int`) the index is out of range either way.
* A run-time panic (slice bounds, index out of range) of an expression is the value `none` of
  an `Option`. A goroutine records whether it ended by a panic; a run whose process is ended by
  such a panic before `Run` returns has the result `none`.
* Collaborators that are not part of the embedded sources (the bundled binary loader
  `memexec.New`, the analysis of a snippet, `ci_yaml.Concat`, the `Severity*` constants) are
  parameters, collected in `Collaborators`.
-/

set_option autoImplicit false

namespace GitlabCiVerify

/-- Go `error` values. -/
abbrev GoError := String

/-- Go slice expression `s[a:]` on a string; `none` is the slice-bounds panic. -/
def sliceFrom (s : String) (a : Int) : Option String :=
  if 0 ≤ a ∧ a ≤ s.length then some ⟨s.data.drop a.toNat⟩ else none

/-- Go slice expression `s[:b]` on a string; `none` is the slice-bounds panic. -/
def sliceTo (s : String) (b : Int) : Option String :=
  if 0 ≤ b ∧ b ≤ s.length then some ⟨s.data.take b.toNat⟩ else none

/-- Go index expression `xs[i]` on a slice; `none` is the index-out-of-range panic. -/
def goIndex {α : Type} (xs : List α) (i : Int) : Option α :=
  if i < 0 then none else xs[i.toNat]?

namespace strings

/-- Go `strings.HasPrefix(s, pre)`. -/
def HasPrefix (s pre : String) : Bool := pre.data.isPrefixOf s.data

/-- Worker of `Index`: position of the first occurrence of `substr`, counting from `i`. -/
def indexFrom (substr : List Char) : List Char → Nat → Int
  | [], i => if substr = [] then (i : Int) else -1
  | c :: cs, i =>
    if substr.isPrefixOf (c :: cs) then (i : Int) else indexFrom substr cs (i + 1)

/-- Go `strings.Index(s, substr)`: index of the first instance of `substr` in `s`, or `-1`. -/
def Index (s substr : String) : Int := indexFrom substr.data s.data 0

/-- Go `strings.SplitN(s, sep, n)` for a non-empty `sep` and `n ≥ 0`: at most `n` pieces, the
last one being the unsplit remainder. -/
def SplitN (s sep : String) : Nat → List String
  | 0 => []
  | 1 => [s]
  | n + 2 =>
    let m := Index s sep
    if m < 0 then [s]
    else ⟨s.data.take m.toNat⟩ :: SplitN ⟨s.data.drop (m.toNat + sep.length)⟩ sep (n + 1)

end strings

namespace strconv

/-- Go `strconv.Itoa(i)`, which is also what `fmt.Sprintf` prints for `%d`: the decimal digits,
preceded by `-` for a negative number. -/
def Itoa : Int → String
  | Int.ofNat n => Nat.repr n
  | Int.negSucc n => "-" ++ Nat.repr (n + 1)

end strconv

namespace api

/-- Embedding of `ParsePipelineMessage` (pipeline_message_parse.go, lines 5-26). -/
def ParsePipelineMessage (message : String) : Option (String × String) :=
  let errorString := message
  (if strings.HasPrefix errorString "jobs:" then sliceFrom errorString 5
    else some errorString).bind fun messageLine =>
  let parts := strings.SplitN messageLine " " 2
  parts[0]?.bind fun word =>
  (if strings.Index word ":" = -1 then some word
    else sliceTo word (strings.Index word ":")).bind fun job =>
  (sliceFrom messageLine (job.length + 1)).bind fun errorMessage =>
  some (job, errorMessage)

/-- Characters that are neither of the two separators `' '` and `':'`. -/
def notSep (x : Char) : Bool := x != ' ' && x != ':'

end api

namespace shellcheck

/-- One diagnostic of the analysis tool, with the fields `Run` reads. -/
structure Finding where
  Level : String
  Code : Int
  Line : Int
  Message : String
deriving DecidableEq, Repr

/-- The `Result` of an analysis, with the field `Run` reads. -/
structure Result where
  Findings : List Finding
deriving DecidableEq, Repr

/-- Handle of the loaded binary (`*memexec.Exec`). -/
abbrev Exec := Unit

/-- The `ShellChecker` struct (main.go, lines 10-12). -/
structure ShellChecker where
  exec : Exec
deriving DecidableEq, Repr

/-- Embedding of `NewShellChecker` (main.go, lines 71-78); `memexecNew` is the outcome of
`memexec.New(shellcheckBinary)`. -/
def NewShellChecker (memexecNew : Except GoError Exec) : Except GoError ShellChecker :=
  match memexecNew with
  | .error err => .error err
  | .ok exec => .ok ⟨exec⟩

end shellcheck

namespace ci_yaml

/-- A line node of the parsed document: its source line number and its text. -/
structure LineNode where
  Line : Int
  Value : String
deriving DecidableEq, Repr

/-- An entry of the position index returned by `Concat`; `Run` reads `.Node.Line`. -/
structure ScriptLine where
  Node : LineNode
deriving DecidableEq, Repr

/-- One element yielded by `ExtractScripts`: a job name and its script fields. `ScriptParts` is
a Go map; it is listed here in the order in which the `range` loop of `Run` visits it. -/
structure JobWithScripts where
  JobName : String
  ScriptParts : List (String × List LineNode)
deriving DecidableEq, Repr

/-- Modelled from the spec: `ci_yaml.Concat` is not among the sources. The spec (4.2) has the
Snippet Assembler write the texts of the line nodes, in order, as consecutive lines separated
by newline, and build a position index that maps each emitted line to its originating node.
The theorems below hold for every `Concat`; this one serves the sample runs. -/
def Concat (parts : List LineNode) : List ScriptLine × String :=
  (parts.map fun n => ⟨n⟩, ⟨['\n'].intercalate (parts.map fun n => n.Value.data)⟩)

end ci_yaml

namespace checks

open ci_yaml

/-- The constants `SeverityError`, `SeverityWarning`, `SeverityInfo` and `SeverityStyle`; their
declaration is not among the sources, so their values are a parameter. -/
structure Severities where
  SeverityError : Int
  SeverityWarning : Int
  SeverityInfo : Int
  SeverityStyle : Int
deriving DecidableEq, Repr

/-- The `CheckFinding` struct, with the fields `Run` fills. -/
structure CheckFinding where
  Severity : Int
  Code : String
  Line : Int
  Message : String
  Link : String
  File : String
deriving DecidableEq, Repr

/-- The fields of `i.Configuration` that `Run` reads. -/
structure Configuration where
  GitLabCiFile : String
  ShellcheckFlags : List String
deriving DecidableEq, Repr

/-- The `CheckInput` as `Run` sees it: `Scripts` is the sequence yielded by
`ci_yaml.ExtractScripts(i.CiYaml.ParsedYamlDoc)`. -/
structure CheckInput where
  Scripts : List JobWithScripts
  Configuration : Configuration
deriving DecidableEq, Repr

/-- What `Run` calls but the embedded sources do not define. `memexecNew` is the outcome of
loading the bundled binary. `AnalyzeSnippet jobName key snippet flags` is the answer of
`shellChecker.AnalyzeSnippet(snippet, flags)`, which runs the external binary on a temporary
file, to the call made for the field `key` of the job `jobName`; it is keyed by the call so
that the external tool need not answer two equal snippets alike. -/
structure Collaborators where
  severities : Severities
  memexecNew : Except GoError shellcheck.Exec
  Concat : List LineNode → List ScriptLine × String
  AnalyzeSnippet : String → String → String → List String → Except GoError shellcheck.Result

/-- Effects of a run that are not part of its result. -/
inductive Event where
  | analyze (jobName key : String)
  | warn (jobName : String)
deriving DecidableEq, Repr

/-- Embedding of `shellcheckLevelToSeverity` (shellcheck_scripts_check.go, lines 15-27). -/
def shellcheckLevelToSeverity (k : Severities) (level : String) : Int :=
  if level = "error" then k.SeverityError
  else if level = "warning" then k.SeverityWarning
  else if level = "info" then k.SeverityInfo
  else if level = "style" then k.SeverityStyle
  else -1

/-- The `CheckFinding` literal of lines 52-59, built for the diagnostic `f` of the field `key`
of the job `jobName` whose position index is `lines`; `none` is the index-out-of-range panic of
`lines[f.Line-1]`. -/
def newCheckFinding (c : Collaborators) (conf : Configuration) (jobName key : String)
    (lines : List ScriptLine) (f : shellcheck.Finding) : Option CheckFinding :=
  (goIndex lines (f.Line - 1)).map fun l =>
    { Severity := shellcheckLevelToSeverity c.severities f.Level
      Code := "SC-" ++ strconv.Itoa f.Code
      Line := l.Node.Line
      Message := "[" ++ jobName ++ ":" ++ key ++ ":" ++ strconv.Itoa f.Line ++ "] " ++ f.Message
      Link := "https://www.shellcheck.net/wiki/SC" ++ strconv.Itoa f.Code
      File := conf.GitLabCiFile }

/-- The loop of lines 51-60: the findings sent to `findingsChan` for the diagnostics of one
analysis, in order, and whether building one of them panicked; the findings sent before the
panic stay sent. -/
def sendFindings (c : Collaborators) (conf : Configuration) (jobName key : String)
    (lines : List ScriptLine) : List shellcheck.Finding → List CheckFinding × Bool
  | [] => ([], false)
  | f :: fs =>
    match newCheckFinding c conf jobName key lines f with
    | none => ([], true)
    | some cf =>
      (cf :: (sendFindings c conf jobName key lines fs).1,
        (sendFindings c conf jobName key lines fs).2)

/-- What one goroutine has done when it ends: the findings it sent, in order, its effects, and
whether it ended by a panic. Its deferred `wg.Done()` (line 42) runs in both cases. -/
structure TaskOutput where
  sent : List CheckFinding
  events : List Event
  panicked : Bool
deriving DecidableEq, Repr

/-- The loop of lines 43-61 over the script fields of one job; a panic ends it. -/
def scriptPartsLoop (c : Collaborators) (conf : Configuration) (jobName : String) :
    List (String × List LineNode) → TaskOutput
  | [] => ⟨[], [], false⟩
  | (key, parts) :: rest =>
    let lines := (c.Concat parts).1
    let joinedScript := (c.Concat parts).2
    match c.AnalyzeSnippet jobName key joinedScript conf.ShellcheckFlags with
    | .error _ =>
      ⟨(scriptPartsLoop c conf jobName rest).sent,
        Event.analyze jobName key :: Event.warn jobName ::
          (scriptPartsLoop c conf jobName rest).events,
        (scriptPartsLoop c conf jobName rest).panicked⟩
    | .ok result =>
      if (sendFindings c conf jobName key lines result.Findings).2 then
        ⟨(sendFindings c conf jobName key lines result.Findings).1,
          [Event.analyze jobName key], true⟩
      else
        ⟨(sendFindings c conf jobName key lines result.Findings).1 ++
            (scriptPartsLoop c conf jobName rest).sent,
          Event.analyze jobName key :: (scriptPartsLoop c conf jobName rest).events,
          (scriptPartsLoop c conf jobName rest).panicked⟩

/-- The goroutine of lines 41-62 started for one job. -/
def jobTask (c : Collaborators) (conf : Configuration) (job : JobWithScripts) : TaskOutput :=
  scriptPartsLoop c conf job.JobName job.ScriptParts

/-- The loop of lines 39-63: one goroutine per job, each run to its end. -/
def launch (c : Collaborators) (conf : Configuration) (jobs : List JobWithScripts) :
    List TaskOutput :=
  jobs.map (jobTask c conf)

/-- Receive the next finding of goroutine `k`, if it has one left to send. -/
def recvFrom {α : Type} : Nat → List (List α) → Option (α × List (List α))
  | _, [] => none
  | 0, [] :: _ => none
  | 0, (x :: q) :: qs => some (x, q :: qs)
  | k + 1, q :: qs => (recvFrom k qs).map fun r => (r.1, q :: r.2)

/-- The receive loop of lines 70-73 on the unbuffered `findingsChan`: `sched` names, receive by
receive, the goroutine whose send is taken next (an entry naming a goroutine with nothing left
to send is skipped); when `sched` is used up the rest is taken in launch order. -/
def fanIn {α : Type} : List Nat → List (List α) → List α
  | [], qs => qs.flatten
  | k :: sched, qs =>
    match recvFrom k qs with
    | some (x, qs') => x :: fanIn sched qs'
    | none => fanIn sched qs

/-- The orders in which findings can arrive from goroutines that each send their own findings
in order: repeatedly some goroutine with a finding left sends it. -/
inductive Arrival {α : Type} : List (List α) → List α → Prop where
  | done {qs : List (List α)} : (∀ q ∈ qs, q = []) → Arrival qs []
  | step {qs qs' : List (List α)} {k : Nat} {x : α} {out : List α} :
      recvFrom k qs = some (x, qs') → Arrival qs' out → Arrival qs (x :: out)

/-- What `Run` hands back: the two results `([]CheckFinding, error)`, `none` standing for `nil`,
and the effects of the run. -/
structure RunReturn where
  findings : Option (List CheckFinding)
  err : Option GoError
  events : List Event
deriving DecidableEq, Repr

/-- What the scheduler decides: `order` names, receive by receive, the goroutine whose send is
taken next; `exitFirst` says, for a run in which a goroutine panics, whether the runtime ends
the process before `Run` returns. -/
structure Schedule where
  order : List Nat
  exitFirst : Bool
deriving DecidableEq, Repr

/-- Embedding of `ShellScriptCheck.Run` (shellcheck_scripts_check.go, lines 29-76). The loop
variable `jobWithScripts` is per iteration (Go 1.22 semantics), so each goroutine works on its
own job. Nothing recovers a panic of a goroutine, so the runtime then ends the process; but the
deferred `wg.Done()` of the panicking goroutine runs first, so `wg.Wait()` (line 66) can be
released, the channel closed and `Run` return what was sent, before the process ends. The
result is `none` when the process ends before `Run` returns. -/
def Run (c : Collaborators) (s : Schedule) (i : CheckInput) : Option RunReturn :=
  match shellcheck.NewShellChecker c.memexecNew with
  | .error err => some ⟨none, some err, []⟩
  | .ok _ =>
    if ((launch c i.Configuration i.Scripts).any fun o => o.panicked) && s.exitFirst then none
    else
      some ⟨some (fanIn s.order ((launch c i.Configuration i.Scripts).map fun o => o.sent)),
        none, (launch c i.Configuration i.Scripts).flatMap fun o => o.events⟩

/-- Whether the analysis of `field` succeeded. -/
def analysisOk (c : Collaborators) (conf : Configuration) (jobName : String)
    (field : String × List LineNode) : Bool :=
  match c.AnalyzeSnippet jobName field.1 (c.Concat field.2).2 conf.ShellcheckFlags with
  | .error _ => false
  | .ok _ => true

/-- The diagnostics the analysis of `field` returned; none when the analysis failed. -/
def diagnosticsOf (c : Collaborators) (conf : Configuration) (jobName : String)
    (field : String × List LineNode) : List shellcheck.Finding :=
  match c.AnalyzeSnippet jobName field.1 (c.Concat field.2).2 conf.ShellcheckFlags with
  | .error _ => []
  | .ok result => result.Findings

/-- The diagnostics of `field`, each translated against the position index of that field. -/
def translated (c : Collaborators) (conf : Configuration) (jobName : String)
    (field : String × List LineNode) : List (Option CheckFinding) :=
  (diagnosticsOf c conf jobName field).map
    (newCheckFinding c conf jobName field.1 (c.Concat field.2).1)

/-- Whether the diagnostic `f` has a line within the position index `lines`. -/
def lineInRange (lines : List ScriptLine) (f : shellcheck.Finding) : Bool :=
  decide (1 ≤ f.Line ∧ f.Line ≤ (lines.length : Int))

/-- Every diagnostic of every successful analysis has a line within the position index of its
field: `1 ≤ f.Line ≤ len(lines)`. -/
def linesInRange (c : Collaborators) (conf : Configuration) (jobs : List JobWithScripts) : Bool :=
  jobs.all fun job => job.ScriptParts.all fun field =>
    (diagnosticsOf c conf job.JobName field).all (lineInRange (c.Concat field.2).1)

/-- The findings of one field as a list: the translations of its diagnostics that exist. -/
def fieldFindings (c : Collaborators) (conf : Configuration) (jobName : String)
    (field : String × List LineNode) : List CheckFinding :=
  (translated c conf jobName field).filterMap id

/-- The findings of the fields of one job, field after field. -/
def jobFindings (c : Collaborators) (conf : Configuration) (job : JobWithScripts) :
    List CheckFinding :=
  job.ScriptParts.flatMap (fieldFindings c conf job.JobName)

/-- The finding `cf` was built for a diagnostic of a successfully analysed script field of one
of `jobs`, whose line `f.Line` lies within the position index that `Concat` returned for that
same field, and the line of `cf` is the source line of entry `f.Line - 1` of that index. -/
def FromOwnIndex (c : Collaborators) (conf : Configuration) (jobs : List JobWithScripts)
    (cf : CheckFinding) : Prop :=
  ∃ job ∈ jobs, ∃ field ∈ job.ScriptParts, ∃ f ∈ diagnosticsOf c conf job.JobName field,
    ∃ l : ScriptLine, 1 ≤ f.Line ∧ f.Line ≤ ((c.Concat field.2).1.length : Int) ∧
      (c.Concat field.2).1[(f.Line - 1).toNat]? = some l ∧
      newCheckFinding c conf job.JobName field.1 (c.Concat field.2).1 f = some cf ∧
      cf.Line = l.Node.Line

/-- Sample values of the severity constants. -/
def sampleSeverities : Severities := ⟨3, 2, 1, 0⟩

/-- A sample analysis tool: it fails on every `before_script`, reports one warning on line 1
of the `script` of job `build`, two diagnostics on the `script` of job `test`, a diagnostic on
line 0 for job `broken`, and nothing else. -/
def sampleAnalyze (jobName key _snippet : String) (_flags : List String) :
    Except GoError shellcheck.Result :=
  if key = "before_script" then .error "exit status 2"
  else if jobName = "broken" then .ok ⟨[⟨"error", 1000, 0, "Parsing stopped here"⟩]⟩
  else if jobName = "build" ∧ key = "script" then
    .ok ⟨[⟨"warning", 2086, 1, "Double quote to prevent globbing"⟩]⟩
  else if jobName = "test" ∧ key = "script" then
    .ok ⟨[⟨"warning", 2115, 2, "Use a guard so this never expands to /*"⟩,
          ⟨"info", 2164, 1, "Use cd ... || exit in case cd fails"⟩]⟩
  else .ok ⟨[]⟩

/-- Sample collaborators whose binary loads. -/
def sampleTool : Collaborators := ⟨sampleSeverities, .ok (), ci_yaml.Concat, sampleAnalyze⟩

/-- Sample collaborators whose binary does not load. -/
def sampleToolDown : Collaborators :=
  ⟨sampleSeverities, .error "memexec: cannot load", ci_yaml.Concat, sampleAnalyze⟩

/-- Sample configuration. -/
def sampleConf : Configuration := ⟨".gitlab-ci.yml", []⟩

/-- The job `build` of the spec scenario, with a `before_script` added. -/
def sampleBuild : JobWithScripts :=
  ⟨"build", [("before_script", [⟨8, "set -e"⟩]), ("script", [⟨10, "echo $X"⟩, ⟨11, "ls -l"⟩])]⟩

/-- A job with nothing to report. -/
def sampleLint : JobWithScripts := ⟨"lint", [("script", [⟨20, "true"⟩])]⟩

/-- A job with two diagnostics, reported in the order line 2, line 1. -/
def sampleTest : JobWithScripts :=
  ⟨"test", [("script", [⟨50, "cd $D"⟩, ⟨51, "rm -r $D/*"⟩])]⟩

/-- A job for which the sample tool reports line 0. -/
def sampleBroken : JobWithScripts := ⟨"broken", [("script", [⟨30, "if"⟩])]⟩

/-- The finding of the spec scenario. -/
def sampleFinding : CheckFinding :=
  { Severity := 2
    Code := "SC-2086"
    Line := 10
    Message := "[build:script:1] Double quote to prevent globbing"
    Link := "https://www.shellcheck.net/wiki/SC2086"
    File := ".gitlab-ci.yml" }

end checks

/-! ## Pipeline message parsing -/

open api checks ci_yaml

theorem take_length_takeWhile (p : Char → Bool) (l : List Char) :
    l.take (l.takeWhile p).length = l.takeWhile p := by
  induction l with
  | nil => rfl
  | cons x xs ih =>
    by_cases h : p x = true
    · simp [List.takeWhile_cons, h, ih]
    · simp [List.takeWhile_cons, h]

theorem indexFrom_single (c : Char) (s : List Char) (i : Nat) :
    strings.indexFrom [c] s i =
      if c ∈ s then ((i + (s.takeWhile (fun x => x != c)).length : Nat) : Int) else -1 := by
  induction s generalizing i with
  | nil => simp [strings.indexFrom]
  | cons x xs ih =>
    by_cases hx : x = c
    · subst hx
      simp [strings.indexFrom, List.isPrefixOf]
    · have hx2 : ¬ c = x := fun h => hx h.symm
      have hb : (x != c) = true := by simpa using hx
      simp only [strings.indexFrom, List.isPrefixOf, List.takeWhile_cons, hb, ih, List.mem_cons, hx2,
        false_or, ite_true, List.length_cons]
      have hf : (c == x && true) = false := by simpa using hx2
      simp only [hf, Bool.false_eq_true, if_false]
      by_cases hm : c ∈ xs
      · simp only [hm, if_true]; push_cast; omega
      · simp only [hm, if_false]

theorem index_single (c : Char) (s : String) :
    strings.Index s ⟨[c]⟩ =
      if c ∈ s.data then (((s.data.takeWhile (fun x => x != c)).length : Nat) : Int) else -1 := by
  simp [strings.Index, indexFrom_single]

theorem takeWhile_eq_self_of_not_mem (c : Char) (s : List Char) (h : c ∉ s) :
    s.takeWhile (fun x => x != c) = s := by
  rw [List.takeWhile_eq_self_iff]
  intro x hx
  simp
  rintro rfl
  exact h hx

theorem takeWhile_takeWhile (s : List Char) :
    (s.takeWhile (fun x => x != ' ')).takeWhile (fun x => x != ':') = s.takeWhile notSep := by
  induction s with
  | nil => rfl
  | cons x xs ih =>
    by_cases h1 : x = ' '
    · subst h1; simp [notSep]
    · by_cases h2 : x = ':'
      · subst h2; simp [notSep]
      · simp [notSep, h1, h2, List.takeWhile_cons]
        simpa [notSep] using ih


theorem splitN_head (ml : List Char) :
    (strings.SplitN ⟨ml⟩ " " 2)[0]? = some ⟨ml.takeWhile (fun x => x != ' ')⟩ := by
  have h := index_single ' ' ⟨ml⟩
  simp only [strings.SplitN]
  change strings.Index ⟨ml⟩ " " = _ at h
  rw [h]
  by_cases hm : ' ' ∈ ml
  · have hnn : ¬ (((ml.takeWhile (fun x => x != ' ')).length : Nat) : Int) < 0 := by omega
    simp only [hm, if_true, hnn, if_false, Int.toNat_ofNat, take_length_takeWhile]
    rfl
  · simp [hm, takeWhile_eq_self_of_not_mem ' ' ml hm]

theorem job_eq (w : List Char) :
    (if strings.Index ⟨w⟩ ":" = -1 then some (⟨w⟩ : String)
      else sliceTo ⟨w⟩ (strings.Index ⟨w⟩ ":")) = some ⟨w.takeWhile (fun x => x != ':')⟩ := by
  have h := index_single ':' ⟨w⟩
  change strings.Index ⟨w⟩ ":" = _ at h
  rw [h]
  by_cases hm : ':' ∈ w
  · have hle : (w.takeWhile (fun x => x != ':')).length ≤ w.length :=
      (List.takeWhile_sublist _).length_le
    have hne : ¬ (((w.takeWhile (fun x => x != ':')).length : Nat) : Int) = -1 := by omega
    simp only [hm, if_true, hne, if_false, sliceTo, String.length]
    rw [if_pos ⟨by omega, by exact_mod_cast hle⟩]
    simp only [Int.toNat_ofNat, take_length_takeWhile]
  · simp [hm, takeWhile_eq_self_of_not_mem ':' w hm]

theorem sliceFrom_succ (ml : List Char) (n : Nat) :
    sliceFrom ⟨ml⟩ ((n : Int) + 1) =
      if n + 1 ≤ ml.length then some ⟨ml.drop (n + 1)⟩ else none := by
  simp only [sliceFrom, String.length]
  by_cases h : n + 1 ≤ ml.length
  · rw [if_pos ⟨by omega, by exact_mod_cast h⟩, if_pos h]
    congr
  · rw [if_neg (fun hh => h (by exact_mod_cast hh.2)), if_neg h]

theorem messageLine_eq (message : String) :
    (if strings.HasPrefix message "jobs:" then sliceFrom message 5 else some message) =
      some ⟨if "jobs:".data <+: message.data then message.data.drop 5 else message.data⟩ := by
  by_cases h : "jobs:".data <+: message.data
  · have hb : strings.HasPrefix message "jobs:" = true := by
      simpa [strings.HasPrefix] using h
    have hl : 5 ≤ message.data.length := by simpa using h.length_le
    rw [if_pos hb, if_pos h]
    simp only [sliceFrom, String.length]
    rw [if_pos ⟨by omega, by exact_mod_cast hl⟩]
    rfl
  · have hb : ¬ strings.HasPrefix message "jobs:" = true := by
      simpa [strings.HasPrefix] using h
    rw [if_neg hb, if_neg h]

theorem parse_eq (message : String) :
    ParsePipelineMessage message =
      (let r : List Char :=
        if "jobs:".data <+: message.data then message.data.drop 5 else message.data
       let job := r.takeWhile notSep
       if job.length + 1 ≤ r.length then some (⟨job⟩, ⟨r.drop (job.length + 1)⟩) else none) := by
  unfold ParsePipelineMessage
  simp only [messageLine_eq, Option.some_bind, splitN_head, job_eq,
    takeWhile_takeWhile, String.length]
  have := sliceFrom_succ (if "jobs:".data <+: message.data then message.data.drop 5 else message.data)
    ((if "jobs:".data <+: message.data then message.data.drop 5 else message.data).takeWhile notSep).length
  push_cast at this ⊢
  rw [this]
  split_ifs <;> rfl

theorem notSep_false_iff (c : Char) : notSep c = false ↔ (c = ' ' ∨ c = ':') := by
  simp only [notSep, Bool.and_eq_false_iff, bne_eq_false_iff_eq]

theorem notSep_true_iff (c : Char) : notSep c = true ↔ (c ≠ ' ' ∧ c ≠ ':') := by
  simp only [notSep, Bool.and_eq_true, bne_iff_ne]

theorem split_at_separator (r : List Char) (h : ' ' ∈ r ∨ ':' ∈ r) :
    ∃ c rest, (c = ' ' ∨ c = ':') ∧ r = r.takeWhile notSep ++ c :: rest := by
  induction r with
  | nil => simp at h
  | cons x xs ih =>
    by_cases hx : notSep x = true
    · have hx2 := (notSep_true_iff x).1 hx
      have h2 : ' ' ∈ xs ∨ ':' ∈ xs := by
        rcases h with h | h
        · left; simpa [Ne.symm hx2.1] using h
        · right; simpa [Ne.symm hx2.2] using h
      obtain ⟨c, rest, hc, hr⟩ := ih h2
      refine ⟨c, rest, hc, ?_⟩
      rw [List.takeWhile_cons, if_pos hx, List.cons_append, ← hr]
    · have hx3 : notSep x = false := by simpa using hx
      refine ⟨x, xs, (notSep_false_iff x).1 hx3, ?_⟩
      rw [List.takeWhile_cons, if_neg hx]
      rfl

theorem takeWhile_notSep_free (r : List Char) :
    ' ' ∉ r.takeWhile notSep ∧ ':' ∉ r.takeWhile notSep := by
  constructor <;> intro h <;> have := List.mem_takeWhile_imp h <;> simp [notSep] at this

theorem takeWhile_notSep_self (r : List Char) (h1 : ' ' ∉ r) (h2 : ':' ∉ r) :
    r.takeWhile notSep = r := by
  rw [List.takeWhile_eq_self_iff]
  intro x hx
  rw [notSep_true_iff]
  exact ⟨fun h => h1 (h ▸ hx), fun h => h2 (h ▸ hx)⟩

/-- C10: with `r` the message less one leading `jobs:`, if `r` holds a space or a colon then
`ParsePipelineMessage` returns `(job, rest)` where `job` is the longest separator-free start of
`r` and `r = job ++ c :: rest` for the separator `c` that follows `job`; if `r` holds neither,
the call panics on its slice bounds and returns nothing. -/
theorem parsePipelineMessage_decomposition (message : String) (r : List Char)
    (hr : r = if "jobs:".data <+: message.data then message.data.drop 5 else message.data) :
    ((' ' ∈ r ∨ ':' ∈ r) →
        ∃ (job rest : List Char) (c : Char),
          ParsePipelineMessage message = some (⟨job⟩, ⟨rest⟩) ∧ (c = ' ' ∨ c = ':') ∧
          r = job ++ c :: rest ∧ ' ' ∉ job ∧ ':' ∉ job ∧
          ∀ p : List Char, p <+: r → ' ' ∉ p → ':' ∉ p → p.length ≤ job.length) ∧
    ((' ' ∉ r ∧ ':' ∉ r) → ParsePipelineMessage message = none) := by
  subst hr
  generalize hr' : (if "jobs:".data <+: message.data then message.data.drop 5
    else message.data) = r
  have hp := parse_eq message
  simp only [hr'] at hp
  constructor
  · intro h
    obtain ⟨c, rest, hc, hr⟩ := split_at_separator r h
    have hlen : (r.takeWhile notSep).length + 1 ≤ r.length := by
      conv_rhs => rw [hr]
      simp
    have hdrop : r.drop ((r.takeWhile notSep).length + 1) = rest := by
      have key : ∀ a : List Char, r = a ++ c :: rest → r.drop (a.length + 1) = rest := by
        intro a ha
        rw [ha, ← List.drop_drop, List.drop_left]
        rfl
      exact key _ hr
    refine ⟨r.takeWhile notSep, rest, c, ?_, hc, hr, (takeWhile_notSep_free r).1,
      (takeWhile_notSep_free r).2, ?_⟩
    · rw [hp, if_pos hlen, hdrop]
    · intro p hpre hs hcol
      by_contra hlt
      have hlt2 : (r.takeWhile notSep ++ [c]).length ≤ p.length := by
        simp only [List.length_append, List.length_singleton]; omega
      have hpre2 : r.takeWhile notSep ++ [c] <+: r := by
        refine ⟨rest, ?_⟩
        conv_rhs => rw [hr]
        simp
      have hsub : r.takeWhile notSep ++ [c] <+: p :=
        List.prefix_of_prefix_length_le hpre2 hpre hlt2
      have hcp : c ∈ p := hsub.subset (by simp)
      rcases hc with rfl | rfl
      · exact hs hcp
      · exact hcol hcp
  · rintro ⟨h1, h2⟩
    rw [hp, takeWhile_notSep_self r h1 h2, if_neg (by omega)]

/-- C10 at the messages `jobs:build:script config should be a string` and `jobs:`. -/
theorem parsePipelineMessage_decomposition_witness :
    (∃ (job rest : List Char) (c : Char),
        ParsePipelineMessage "jobs:build:script config should be a string" = some (⟨job⟩, ⟨rest⟩) ∧
        (c = ' ' ∨ c = ':') ∧ "build:script config should be a string".data = job ++ c :: rest ∧
        ' ' ∉ job ∧ ':' ∉ job ∧
        ∀ p : List Char, p <+: "build:script config should be a string".data →
          ' ' ∉ p → ':' ∉ p → p.length ≤ job.length) ∧
    ParsePipelineMessage "jobs:build:script config should be a string" =
      some ("build", "script config should be a string") ∧
    ParsePipelineMessage "jobs:" = none ∧ ParsePipelineMessage "" = none :=
  ⟨(parsePipelineMessage_decomposition "jobs:build:script config should be a string"
      "build:script config should be a string".data (by decide)).1 (by decide),
   by decide,
   (parsePipelineMessage_decomposition "jobs:" [] (by decide)).2 (by decide),
   (parsePipelineMessage_decomposition "" [] (by decide)).2 (by decide)⟩

/-! ## Severity of a diagnostic level -/

/-- C3 as stated fails: the level `fatal` is none of the four known levels and is mapped
to `-1`. -/
theorem shellcheckLevelToSeverity_unknown_is_minus_one :
    "fatal" ∉ ["error", "warning", "info", "style"] ∧
      shellcheckLevelToSeverity sampleSeverities "fatal" = -1 := by
  decide

/-- C3 amended: `shellcheckLevelToSeverity` is a total function; the four known levels map
to the four severity constants; every other level maps to the one fixed ordinal `-1`, which
differs from the ordinal of every known level as soon as none of the four constants is `-1`. -/
theorem shellcheckLevelToSeverity_total (k : Severities) (level : String) :
    shellcheckLevelToSeverity k "error" = k.SeverityError ∧
    shellcheckLevelToSeverity k "warning" = k.SeverityWarning ∧
    shellcheckLevelToSeverity k "info" = k.SeverityInfo ∧
    shellcheckLevelToSeverity k "style" = k.SeverityStyle ∧
    (level ∉ ["error", "warning", "info", "style"] →
      shellcheckLevelToSeverity k level = -1 ∧
      (k.SeverityError ≠ -1 → k.SeverityWarning ≠ -1 → k.SeverityInfo ≠ -1 →
        k.SeverityStyle ≠ -1 →
        ∀ known ∈ ["error", "warning", "info", "style"],
          shellcheckLevelToSeverity k level ≠ shellcheckLevelToSeverity k known)) := by
  have he : shellcheckLevelToSeverity k "error" = k.SeverityError := by
    simp [shellcheckLevelToSeverity]
  have hw : shellcheckLevelToSeverity k "warning" = k.SeverityWarning := by
    simp [shellcheckLevelToSeverity]
  have hi : shellcheckLevelToSeverity k "info" = k.SeverityInfo := by
    simp [shellcheckLevelToSeverity]
  have hs : shellcheckLevelToSeverity k "style" = k.SeverityStyle := by
    simp [shellcheckLevelToSeverity]
  refine ⟨he, hw, hi, hs, fun hlevel => ?_⟩
  simp only [List.mem_cons, List.mem_singleton, List.not_mem_nil, or_false, not_or] at hlevel
  obtain ⟨h1, h2, h3, h4⟩ := hlevel
  have hu : shellcheckLevelToSeverity k level = -1 := by
    simp [shellcheckLevelToSeverity, h1, h2, h3, h4]
  refine ⟨hu, fun e1 e2 e3 e4 known hk => ?_⟩
  simp only [List.mem_cons, List.mem_singleton, List.not_mem_nil, or_false] at hk
  rw [hu]
  rcases hk with rfl | rfl | rfl | rfl
  · rw [he]; exact fun h => e1 h.symm
  · rw [hw]; exact fun h => e2 h.symm
  · rw [hi]; exact fun h => e3 h.symm
  · rw [hs]; exact fun h => e4 h.symm

/-- C3 amended, at the level `fatal` and the sample constants. -/
theorem shellcheckLevelToSeverity_total_witness :
    shellcheckLevelToSeverity sampleSeverities "fatal" = -1 ∧
      ∀ known ∈ ["error", "warning", "info", "style"],
        shellcheckLevelToSeverity sampleSeverities "fatal" ≠
          shellcheckLevelToSeverity sampleSeverities known :=
  let h := (shellcheckLevelToSeverity_total sampleSeverities "fatal").2.2.2.2 (by decide)
  ⟨h.1, h.2 (by decide) (by decide) (by decide) (by decide)⟩

/-! ## The finding built for one diagnostic -/

theorem newCheckFinding_eq_some {c : Collaborators} {conf : Configuration}
    {jobName key : String} {lines : List ScriptLine} {f : shellcheck.Finding}
    {cf : CheckFinding} (h : newCheckFinding c conf jobName key lines f = some cf) :
    ∃ l, goIndex lines (f.Line - 1) = some l ∧
      cf = { Severity := shellcheckLevelToSeverity c.severities f.Level
             Code := "SC-" ++ strconv.Itoa f.Code
             Line := l.Node.Line
             Message :=
               "[" ++ jobName ++ ":" ++ key ++ ":" ++ strconv.Itoa f.Line ++ "] " ++ f.Message
             Link := "https://www.shellcheck.net/wiki/SC" ++ strconv.Itoa f.Code
             File := conf.GitLabCiFile } := by
  unfold newCheckFinding at h
  obtain ⟨l, hl, hcf⟩ := Option.map_eq_some'.1 h
  exact ⟨l, hl, hcf.symm⟩

/-- C5: the message of the finding built for a diagnostic is
`"[" + jobName + ":" + key + ":" + decimal(f.Line) + "] " + f.Message`, so the job name, the
field key, the decimal diagnostic line and the diagnostic text each occur in it unaltered and
contiguous. -/
theorem finding_message_format (c : Collaborators) (conf : Configuration)
    (jobName key : String) (lines : List ScriptLine) (f : shellcheck.Finding)
    (cf : CheckFinding) (h : newCheckFinding c conf jobName key lines f = some cf) :
    cf.Message =
        "[" ++ jobName ++ ":" ++ key ++ ":" ++ strconv.Itoa f.Line ++ "] " ++ f.Message ∧
      jobName.data <:+: cf.Message.data ∧ key.data <:+: cf.Message.data ∧
      (strconv.Itoa f.Line).data <:+: cf.Message.data ∧ f.Message.data <:+: cf.Message.data := by
  obtain ⟨l, -, rfl⟩ := newCheckFinding_eq_some h
  refine ⟨rfl, ?_, ?_, ?_, ?_⟩
  · exact ⟨"[".data,
      (":" ++ key ++ ":" ++ strconv.Itoa f.Line ++ "] " ++ f.Message).data, by
        simp [String.data_append]⟩
  · exact ⟨("[" ++ jobName ++ ":").data,
      (":" ++ strconv.Itoa f.Line ++ "] " ++ f.Message).data, by simp [String.data_append]⟩
  · exact ⟨("[" ++ jobName ++ ":" ++ key ++ ":").data, ("] " ++ f.Message).data, by
      simp [String.data_append]⟩
  · exact ⟨("[" ++ jobName ++ ":" ++ key ++ ":" ++ strconv.Itoa f.Line ++ "] ").data, [], by
      simp [String.data_append]⟩

/-- C5 at job `build`, key `script`, line 1 of the spec scenario. -/
theorem finding_message_format_witness :
    sampleFinding.Message = "[build:script:1] Double quote to prevent globbing" ∧
      "build".data <:+: sampleFinding.Message.data ∧
      "script".data <:+: sampleFinding.Message.data ∧
      "1".data <:+: sampleFinding.Message.data ∧
      "Double quote to prevent globbing".data <:+: sampleFinding.Message.data :=
  finding_message_format sampleTool sampleConf "build" "script"
    (Concat [⟨10, "echo $X"⟩, ⟨11, "ls -l"⟩]).1
    ⟨"warning", 2086, 1, "Double quote to prevent globbing"⟩ sampleFinding (by decide)

/-- C6: the code of a finding is `SC-` followed by the decimal diagnostic code and its link is
`https://www.shellcheck.net/wiki/SC` followed by the same digits; two diagnostics with equal
codes get equal code and link, whatever their level, line, message, job and field. -/
theorem finding_code_and_link (c c' : Collaborators) (conf conf' : Configuration)
    (jobName key jobName' key' : String) (lines lines' : List ScriptLine)
    (f f' : shellcheck.Finding) (cf cf' : CheckFinding)
    (h : newCheckFinding c conf jobName key lines f = some cf)
    (h' : newCheckFinding c' conf' jobName' key' lines' f' = some cf') :
    cf.Code = "SC-" ++ strconv.Itoa f.Code ∧
      cf.Link = "https://www.shellcheck.net/wiki/SC" ++ strconv.Itoa f.Code ∧
      (f.Code = f'.Code → cf.Code = cf'.Code ∧ cf.Link = cf'.Link) := by
  obtain ⟨l, -, rfl⟩ := newCheckFinding_eq_some h
  obtain ⟨l', -, rfl⟩ := newCheckFinding_eq_some h'
  refine ⟨rfl, rfl, fun hc => ?_⟩
  simp only [hc, and_self]

/-- C6 at code 2086: the finding of the spec scenario and the finding of another job, field,
level, line and message with the same code. -/
theorem finding_code_and_link_witness :
    sampleFinding.Code = "SC-2086" ∧
      sampleFinding.Link = "https://www.shellcheck.net/wiki/SC2086" ∧
      ((2086 : Int) = 2086 →
        sampleFinding.Code = "SC-2086" ∧
        sampleFinding.Link = "https://www.shellcheck.net/wiki/SC2086") :=
  finding_code_and_link sampleTool sampleToolDown sampleConf ⟨"ci.yml", ["-x"]⟩
    "build" "script" "deploy" "after_script"
    (Concat [⟨10, "echo $X"⟩, ⟨11, "ls -l"⟩]).1 (Concat [⟨40, "a"⟩, ⟨41, "b"⟩, ⟨42, "c"⟩]).1
    ⟨"warning", 2086, 1, "Double quote to prevent globbing"⟩ ⟨"info", 2086, 3, "again"⟩
    sampleFinding
    { Severity := 1
      Code := "SC-2086"
      Line := 42
      Message := "[deploy:after_script:3] again"
      Link := "https://www.shellcheck.net/wiki/SC2086"
      File := "ci.yml" }
    (by decide) (by decide)

/-! ## One goroutine -/

theorem goIndex_pred_isSome {α : Type} (xs : List α) (n : Int) :
    (goIndex xs (n - 1)).isSome = decide (1 ≤ n ∧ n ≤ (xs.length : Int)) := by
  unfold goIndex
  by_cases h : n - 1 < 0
  · have : ¬ (1 ≤ n ∧ n ≤ (xs.length : Int)) := by omega
    simp [h, this]
  · rw [if_neg h]
    by_cases h2 : (n - 1).toNat < xs.length
    · have : 1 ≤ n ∧ n ≤ (xs.length : Int) := by omega
      rw [List.getElem?_eq_getElem h2, decide_eq_true this]
      rfl
    · have : ¬ (1 ≤ n ∧ n ≤ (xs.length : Int)) := by omega
      have h3 : xs[(n - 1).toNat]? = none := List.getElem?_eq_none (by omega)
      rw [h3, decide_eq_false this]
      rfl

theorem newCheckFinding_isSome (c : Collaborators) (conf : Configuration)
    (jobName key : String) (lines : List ScriptLine) (f : shellcheck.Finding) :
    (newCheckFinding c conf jobName key lines f).isSome = lineInRange lines f := by
  unfold newCheckFinding lineInRange
  rw [Option.isSome_map', goIndex_pred_isSome]

theorem newCheckFinding_eq_none_iff (c : Collaborators) (conf : Configuration)
    (jobName key : String) (lines : List ScriptLine) (f : shellcheck.Finding) :
    newCheckFinding c conf jobName key lines f = none ↔ lineInRange lines f = false := by
  rw [← newCheckFinding_isSome c conf jobName key lines f]
  cases newCheckFinding c conf jobName key lines f <;> simp

theorem sendFindings_panicked (c : Collaborators) (conf : Configuration)
    (jobName key : String) (lines : List ScriptLine) (fs : List shellcheck.Finding) :
    (sendFindings c conf jobName key lines fs).2 = !(fs.all (lineInRange lines)) := by
  induction fs with
  | nil => rfl
  | cons f fs ih =>
    have hf := newCheckFinding_isSome c conf jobName key lines f
    simp only [sendFindings, List.all_cons]
    cases hcf : newCheckFinding c conf jobName key lines f with
    | none =>
      rw [hcf] at hf
      simp [← hf]
    | some cf =>
      rw [hcf] at hf
      simp [← hf, ih]

theorem sendFindings_sent_of_not_panicked {c : Collaborators} {conf : Configuration}
    {jobName key : String} {lines : List ScriptLine} {fs : List shellcheck.Finding}
    (h : (sendFindings c conf jobName key lines fs).2 = false) :
    (sendFindings c conf jobName key lines fs).1 =
      (fs.map (newCheckFinding c conf jobName key lines)).filterMap id := by
  induction fs with
  | nil => rfl
  | cons f fs ih =>
    simp only [sendFindings] at h ⊢
    cases hcf : newCheckFinding c conf jobName key lines f with
    | none => simp [hcf] at h
    | some cf =>
      simp only [hcf] at h ⊢
      simp [hcf, ih h]

theorem mem_sendFindings {c : Collaborators} {conf : Configuration}
    {jobName key : String} {lines : List ScriptLine} {fs : List shellcheck.Finding}
    {cf : CheckFinding} (h : cf ∈ (sendFindings c conf jobName key lines fs).1) :
    ∃ f ∈ fs, newCheckFinding c conf jobName key lines f = some cf := by
  induction fs with
  | nil => simp [sendFindings] at h
  | cons f fs ih =>
    simp only [sendFindings] at h
    cases hcf : newCheckFinding c conf jobName key lines f with
    | none => simp [hcf] at h
    | some cf0 =>
      simp only [hcf, List.mem_cons] at h
      rcases h with rfl | h
      · exact ⟨f, List.mem_cons_self _ _, hcf⟩
      · obtain ⟨g, hg, hgcf⟩ := ih h
        exact ⟨g, List.mem_cons_of_mem _ hg, hgcf⟩

theorem sendFindings_stops_at {c : Collaborators} {conf : Configuration}
    {jobName key : String} {lines : List ScriptLine} {f : shellcheck.Finding}
    (hf : newCheckFinding c conf jobName key lines f = none)
    (before after : List shellcheck.Finding) :
    ((sendFindings c conf jobName key lines (before ++ f :: after)).1 <+:
        (sendFindings c conf jobName key lines before).1) ∧
      (sendFindings c conf jobName key lines (before ++ f :: after)).2 = true := by
  induction before with
  | nil => simp [sendFindings, hf]
  | cons g gs ih =>
    simp only [List.cons_append, sendFindings]
    cases hg : newCheckFinding c conf jobName key lines g with
    | none => simp
    | some cg =>
      simp only
      exact ⟨(List.prefix_cons_inj cg).2 ih.1, ih.2⟩

theorem fieldFindings_of_error {c : Collaborators} {conf : Configuration} {jobName : String}
    {field : String × List LineNode} {err : GoError}
    (h : c.AnalyzeSnippet jobName field.1 (c.Concat field.2).2 conf.ShellcheckFlags =
      .error err) :
    fieldFindings c conf jobName field = [] := by
  simp [fieldFindings, translated, diagnosticsOf, h]

theorem scriptPartsLoop_panicked (c : Collaborators) (conf : Configuration) (jobName : String)
    (fields : List (String × List LineNode)) :
    (scriptPartsLoop c conf jobName fields).panicked =
      !(fields.all fun field =>
        (diagnosticsOf c conf jobName field).all (lineInRange (c.Concat field.2).1)) := by
  induction fields with
  | nil => rfl
  | cons field rest ih =>
    obtain ⟨key, parts⟩ := field
    simp only [scriptPartsLoop, List.all_cons, diagnosticsOf]
    cases ha : c.AnalyzeSnippet jobName key (c.Concat parts).2 conf.ShellcheckFlags with
    | error err => simp [ih, diagnosticsOf]
    | ok result =>
      have hs := sendFindings_panicked c conf jobName key (c.Concat parts).1 result.Findings
      simp only
      cases hall : result.Findings.all (lineInRange (c.Concat parts).1) with
      | false =>
        rw [hall] at hs
        simp [hs]
      | true =>
        rw [hall] at hs
        simp only [Bool.not_true] at hs
        simp [hs, ih, diagnosticsOf]

theorem scriptPartsLoop_sent_of_not_panicked {c : Collaborators} {conf : Configuration}
    {jobName : String} {fields : List (String × List LineNode)}
    (h : (scriptPartsLoop c conf jobName fields).panicked = false) :
    (scriptPartsLoop c conf jobName fields).sent =
      fields.flatMap (fieldFindings c conf jobName) := by
  induction fields with
  | nil => rfl
  | cons field rest ih =>
    obtain ⟨key, parts⟩ := field
    simp only [scriptPartsLoop] at h ⊢
    rw [List.flatMap_cons]
    cases ha : c.AnalyzeSnippet jobName key (c.Concat parts).2 conf.ShellcheckFlags with
    | error err =>
      simp only [ha] at h ⊢
      have := @fieldFindings_of_error c conf jobName (key, parts) err ha
      simp [this, ih h]
    | ok result =>
      simp only [ha] at h ⊢
      cases hp : (sendFindings c conf jobName key (c.Concat parts).1 result.Findings).2 with
      | true => simp [hp] at h
      | false =>
        simp only [hp, Bool.false_eq_true, if_false] at h ⊢
        have hfs := sendFindings_sent_of_not_panicked hp
        have : fieldFindings c conf jobName (key, parts) =
            (sendFindings c conf jobName key (c.Concat parts).1 result.Findings).1 := by
          simp only [fieldFindings, translated, diagnosticsOf, ha, hfs]
        rw [this, ih h]

theorem mem_scriptPartsLoop_sent {c : Collaborators} {conf : Configuration}
    {jobName : String} {fields : List (String × List LineNode)} {cf : CheckFinding}
    (h : cf ∈ (scriptPartsLoop c conf jobName fields).sent) :
    ∃ field ∈ fields, ∃ f ∈ diagnosticsOf c conf jobName field,
      newCheckFinding c conf jobName field.1 (c.Concat field.2).1 f = some cf := by
  induction fields with
  | nil => simp [scriptPartsLoop] at h
  | cons field rest ih =>
    obtain ⟨key, parts⟩ := field
    simp only [scriptPartsLoop] at h
    cases ha : c.AnalyzeSnippet jobName key (c.Concat parts).2 conf.ShellcheckFlags with
    | error err =>
      simp only [ha] at h
      obtain ⟨field, hfield, hrest⟩ := ih h
      exact ⟨field, List.mem_cons_of_mem _ hfield, hrest⟩
    | ok result =>
      simp only [ha] at h
      have hhere : cf ∈ (sendFindings c conf jobName key (c.Concat parts).1 result.Findings).1 →
          ∃ field ∈ (key, parts) :: rest, ∃ f ∈ diagnosticsOf c conf jobName field,
            newCheckFinding c conf jobName field.1 (c.Concat field.2).1 f = some cf := by
        intro hm
        obtain ⟨f, hf, hcf⟩ := mem_sendFindings hm
        refine ⟨(key, parts), List.mem_cons_self _ _, f, ?_, hcf⟩
        simp only [diagnosticsOf, ha]
        exact hf
      cases hp : (sendFindings c conf jobName key (c.Concat parts).1 result.Findings).2 with
      | true =>
        simp only [hp, if_true] at h
        exact hhere h
      | false =>
        simp only [hp, Bool.false_eq_true, if_false, List.mem_append] at h
        rcases h with h | h
        · exact hhere h
        · obtain ⟨field, hfield, hrest⟩ := ih h
          exact ⟨field, List.mem_cons_of_mem _ hfield, hrest⟩

theorem launch_any_panicked (c : Collaborators) (conf : Configuration)
    (jobs : List JobWithScripts) :
    ((launch c conf jobs).any fun o => o.panicked) = !(linesInRange c conf jobs) := by
  induction jobs with
  | nil => rfl
  | cons job rest ih =>
    have hj := scriptPartsLoop_panicked c conf job.JobName job.ScriptParts
    simp only [launch, List.map_cons, List.any_cons, linesInRange, List.all_cons] at ih ⊢
    rw [ih]
    simp only [jobTask, hj, launch, linesInRange, Bool.not_and]

theorem launch_sent_of_inRange {c : Collaborators} {conf : Configuration}
    {jobs : List JobWithScripts} (h : linesInRange c conf jobs = true) :
    ((launch c conf jobs).map fun o => o.sent) = jobs.map (jobFindings c conf) := by
  induction jobs with
  | nil => rfl
  | cons job rest ih =>
    simp only [linesInRange, List.all_cons, Bool.and_eq_true] at h
    have hrest : linesInRange c conf rest = true := h.2
    have hp : (scriptPartsLoop c conf job.JobName job.ScriptParts).panicked = false := by
      rw [scriptPartsLoop_panicked, h.1]
      rfl
    have hs := scriptPartsLoop_sent_of_not_panicked hp
    simp only [launch, List.map_cons, List.map_map] at ih ⊢
    rw [ih hrest]
    simp only [jobTask, hs, jobFindings, Function.comp]

/-! ## Fan-in of the goroutines -/

theorem recvFrom_perm {α : Type} {k : Nat} {qs qs' : List (List α)} {x : α}
    (h : recvFrom k qs = some (x, qs')) : qs.flatten.Perm (x :: qs'.flatten) := by
  induction qs generalizing k qs' with
  | nil => simp [recvFrom] at h
  | cons q rest ih =>
    cases k with
    | zero =>
      cases q with
      | nil => simp [recvFrom] at h
      | cons y q =>
        simp only [recvFrom, Option.some.injEq, Prod.mk.injEq] at h
        obtain ⟨rfl, rfl⟩ := h
        simp
    | succ k =>
      simp only [recvFrom] at h
      obtain ⟨r, hr, hrr⟩ := Option.map_eq_some'.1 h
      simp only [Prod.mk.injEq] at hrr
      obtain ⟨rfl, rfl⟩ := hrr
      have := ih hr
      simp only [List.flatten_cons]
      exact (List.Perm.append_left q this).trans List.perm_middle

theorem recvFrom_mem {α : Type} {k : Nat} {qs qs' : List (List α)} {x : α}
    (h : recvFrom k qs = some (x, qs')) (q : List α) (hq : q ∈ qs) :
    q ∈ qs' ∨ ∃ q', q = x :: q' ∧ q' ∈ qs' := by
  induction qs generalizing k qs' with
  | nil => simp [recvFrom] at h
  | cons q0 rest ih =>
    cases k with
    | zero =>
      cases q0 with
      | nil => simp [recvFrom] at h
      | cons y q1 =>
        simp only [recvFrom, Option.some.injEq, Prod.mk.injEq] at h
        obtain ⟨rfl, rfl⟩ := h
        rcases List.mem_cons.1 hq with rfl | hq
        · exact Or.inr ⟨q1, rfl, List.mem_cons_self _ _⟩
        · exact Or.inl (List.mem_cons_of_mem _ hq)
    | succ k =>
      simp only [recvFrom] at h
      obtain ⟨r, hr, hrr⟩ := Option.map_eq_some'.1 h
      simp only [Prod.mk.injEq] at hrr
      obtain ⟨rfl, rfl⟩ := hrr
      rcases List.mem_cons.1 hq with rfl | hq
      · exact Or.inl (List.mem_cons_self _ _)
      · rcases ih hr hq with h1 | ⟨q', h1, h2⟩
        · exact Or.inl (List.mem_cons_of_mem _ h1)
        · exact Or.inr ⟨q', h1, List.mem_cons_of_mem _ h2⟩

theorem fanIn_perm {α : Type} (sched : List Nat) (qs : List (List α)) :
    (fanIn sched qs).Perm qs.flatten := by
  induction sched generalizing qs with
  | nil => exact List.Perm.refl _
  | cons k sched ih =>
    simp only [fanIn]
    cases hr : recvFrom k qs with
    | none => exact ih qs
    | some r =>
      obtain ⟨x, qs'⟩ := r
      exact ((ih qs').cons x).trans (recvFrom_perm hr).symm

theorem fanIn_sublist {α : Type} (sched : List Nat) (qs : List (List α)) (q : List α)
    (hq : q ∈ qs) : q.Sublist (fanIn sched qs) := by
  induction sched generalizing qs q with
  | nil => exact List.sublist_flatten_of_mem hq
  | cons k sched ih =>
    simp only [fanIn]
    cases hr : recvFrom k qs with
    | none => exact ih qs q hq
    | some r =>
      obtain ⟨x, qs'⟩ := r
      rcases recvFrom_mem hr q hq with h1 | ⟨q', rfl, h2⟩
      · exact (ih qs' q h1).cons x
      · exact (ih qs' q' h2).cons₂ x

theorem fanIn_reaches_every_arrival {α : Type} {qs : List (List α)} {out : List α}
    (h : Arrival qs out) : ∃ sched, fanIn sched qs = out := by
  induction h with
  | done hall =>
    refine ⟨[], ?_⟩
    simp only [fanIn]
    apply List.eq_nil_iff_forall_not_mem.2
    intro a ha
    obtain ⟨q, hq, haq⟩ := List.mem_flatten.1 ha
    rw [hall q hq] at haq
    cases haq
  | @step qs qs' k x out hrecv _ ih =>
    obtain ⟨sched, hs⟩ := ih
    exact ⟨k :: sched, by simp only [fanIn, hrecv, hs]⟩

/-! ## The run as a whole -/

theorem run_of_init_error {c : Collaborators} {err : GoError}
    (hinit : c.memexecNew = .error err) (s : Schedule) (i : CheckInput) :
    Run c s i = some ⟨none, some err, []⟩ := by
  simp [Run, shellcheck.NewShellChecker, hinit]

theorem run_of_init_ok {c : Collaborators} {e : shellcheck.Exec}
    (hinit : c.memexecNew = .ok e) (s : Schedule) (i : CheckInput) :
    Run c s i =
      if ((launch c i.Configuration i.Scripts).any fun o => o.panicked) && s.exitFirst then none
      else
        some ⟨some (fanIn s.order ((launch c i.Configuration i.Scripts).map fun o => o.sent)),
          none, (launch c i.Configuration i.Scripts).flatMap fun o => o.events⟩ := by
  simp only [Run, shellcheck.NewShellChecker, hinit]

theorem run_returns_of_inRange {c : Collaborators} {e : shellcheck.Exec}
    (hinit : c.memexecNew = .ok e) (s : Schedule) (i : CheckInput)
    (hrange : linesInRange c i.Configuration i.Scripts = true) :
    ∃ ev, Run c s i =
      some ⟨some (fanIn s.order (i.Scripts.map (jobFindings c i.Configuration))), none, ev⟩ := by
  rw [run_of_init_ok hinit, launch_any_panicked, hrange, launch_sent_of_inRange hrange]
  exact ⟨_, rfl⟩

theorem run_exitFirst_of_not_inRange {c : Collaborators} {e : shellcheck.Exec}
    (hinit : c.memexecNew = .ok e) (order : List Nat) (i : CheckInput)
    (hrange : linesInRange c i.Configuration i.Scripts = false) :
    Run c ⟨order, true⟩ i = none := by
  rw [run_of_init_ok hinit, launch_any_panicked, hrange]
  rfl

theorem run_returns_of_not_exitFirst {c : Collaborators} {e : shellcheck.Exec}
    (hinit : c.memexecNew = .ok e) (order : List Nat) (i : CheckInput) :
    Run c ⟨order, false⟩ i =
      some ⟨some (fanIn order ((launch c i.Configuration i.Scripts).map fun o => o.sent)),
        none, (launch c i.Configuration i.Scripts).flatMap fun o => o.events⟩ := by
  rw [run_of_init_ok hinit]
  simp

theorem init_ok_of_run_findings {c : Collaborators} {s : Schedule} {i : CheckInput}
    {fs : List CheckFinding} {ev : List Event}
    (hrun : Run c s i = some ⟨some fs, none, ev⟩) :
    ∃ e, c.memexecNew = .ok e := by
  cases hinit : c.memexecNew with
  | error err =>
    rw [run_of_init_error hinit] at hrun
    simp at hrun
  | ok e => exact ⟨e, rfl⟩

theorem findings_of_run {c : Collaborators} {s : Schedule} {i : CheckInput}
    {fs : List CheckFinding} {ev : List Event}
    (hrun : Run c s i = some ⟨some fs, none, ev⟩) :
    fs = fanIn s.order ((launch c i.Configuration i.Scripts).map fun o => o.sent) := by
  obtain ⟨e, hinit⟩ := init_ok_of_run_findings hrun
  rw [run_of_init_ok hinit] at hrun
  split at hrun
  · cases hrun
  · simp only [Option.some.injEq, RunReturn.mk.injEq, true_and] at hrun
    exact hrun.1.symm

theorem fromOwnIndex_of_newCheckFinding {c : Collaborators} {conf : Configuration}
    {jobs : List JobWithScripts} {job : JobWithScripts} {field : String × List LineNode}
    {f : shellcheck.Finding} {cf : CheckFinding} (hjob : job ∈ jobs)
    (hfield : field ∈ job.ScriptParts) (hf : f ∈ diagnosticsOf c conf job.JobName field)
    (hcf : newCheckFinding c conf job.JobName field.1 (c.Concat field.2).1 f = some cf) :
    FromOwnIndex c conf jobs cf := by
  have hsome := newCheckFinding_isSome c conf job.JobName field.1 (c.Concat field.2).1 f
  rw [hcf, lineInRange] at hsome
  have hr : 1 ≤ f.Line ∧ f.Line ≤ ((c.Concat field.2).1.length : Int) :=
    of_decide_eq_true hsome.symm
  obtain ⟨l, hl, hcfeq⟩ := newCheckFinding_eq_some hcf
  have hl2 : (c.Concat field.2).1[(f.Line - 1).toNat]? = some l := by
    unfold goIndex at hl
    rwa [if_neg (by omega)] at hl
  exact ⟨job, hjob, field, hfield, f, hf, l, hr.1, hr.2, hl2, hcf, by rw [hcfeq]⟩

theorem run_findings_fromOwnIndex {c : Collaborators} {s : Schedule} {i : CheckInput}
    {fs : List CheckFinding} {ev : List Event}
    (hrun : Run c s i = some ⟨some fs, none, ev⟩) {cf : CheckFinding} (hcf : cf ∈ fs) :
    FromOwnIndex c i.Configuration i.Scripts cf := by
  rw [findings_of_run hrun] at hcf
  have h1 := (fanIn_perm s.order _).mem_iff.1 hcf
  obtain ⟨q, hq, hcfq⟩ := List.mem_flatten.1 h1
  obtain ⟨o, ho, rfl⟩ := List.mem_map.1 hq
  obtain ⟨job, hjob, rfl⟩ := List.mem_map.1 ho
  obtain ⟨field, hfield, f, hf, hnew⟩ := mem_scriptPartsLoop_sent hcfq
  exact fromOwnIndex_of_newCheckFinding hjob hfield hf hnew

theorem mem_fieldFindings {c : Collaborators} {conf : Configuration} {jobName key : String}
    {parts : List LineNode} {result : shellcheck.Result} {f : shellcheck.Finding}
    {cf : CheckFinding}
    (hres : c.AnalyzeSnippet jobName key (c.Concat parts).2 conf.ShellcheckFlags = .ok result)
    (hf : f ∈ result.Findings)
    (hcf : newCheckFinding c conf jobName key (c.Concat parts).1 f = some cf) :
    cf ∈ fieldFindings c conf jobName (key, parts) := by
  simp only [fieldFindings, translated, diagnosticsOf, hres, List.mem_filterMap, List.mem_map,
    id_eq, exists_eq_right]
  exact ⟨f, hf, hcf⟩

theorem mem_fanIn_jobFindings {c : Collaborators} {conf : Configuration}
    {jobs : List JobWithScripts} {job : JobWithScripts} {field : String × List LineNode}
    {cf : CheckFinding} (sched : List Nat) (hjob : job ∈ jobs)
    (hfield : field ∈ job.ScriptParts) (hcf : cf ∈ fieldFindings c conf job.JobName field) :
    cf ∈ fanIn sched (jobs.map (jobFindings c conf)) := by
  refine (fanIn_perm sched _).mem_iff.2 ?_
  refine List.mem_flatten.2 ⟨jobFindings c conf job, List.mem_map_of_mem _ hjob, ?_⟩
  exact List.mem_flatMap.2 ⟨field, hfield, hcf⟩

theorem lineInRange_of_linesInRange {c : Collaborators} {conf : Configuration}
    {jobs : List JobWithScripts} (hrange : linesInRange c conf jobs = true)
    {job : JobWithScripts} (hjob : job ∈ jobs) {field : String × List LineNode}
    (hfield : field ∈ job.ScriptParts) {f : shellcheck.Finding}
    (hf : f ∈ diagnosticsOf c conf job.JobName field) :
    lineInRange (c.Concat field.2).1 f = true := by
  simp only [linesInRange, List.all_eq_true] at hrange
  exact hrange job hjob field hfield f hf


theorem mem_run_of_sent {c : Collaborators} {s : Schedule} {i : CheckInput}
    {fs : List CheckFinding} {ev : List Event}
    (hrun : Run c s i = some ⟨some fs, none, ev⟩) {job : JobWithScripts}
    (hjob : job ∈ i.Scripts) {cf : CheckFinding}
    (hcf : cf ∈ (jobTask c i.Configuration job).sent) : cf ∈ fs := by
  rw [findings_of_run hrun]
  refine (fanIn_perm s.order _).mem_iff.2 ?_
  refine List.mem_flatten.2 ⟨(jobTask c i.Configuration job).sent, ?_, hcf⟩
  exact List.mem_map.2 ⟨jobTask c i.Configuration job, List.mem_map_of_mem _ hjob, rfl⟩

theorem jobTask_panicked_of_out_of_range {c : Collaborators} {conf : Configuration}
    {job : JobWithScripts} {field : String × List LineNode} {f : shellcheck.Finding}
    (hfield : field ∈ job.ScriptParts) (hf : f ∈ diagnosticsOf c conf job.JobName field)
    (hnot : lineInRange (c.Concat field.2).1 f = false) :
    (jobTask c conf job).panicked = true := by
  unfold jobTask
  rw [scriptPartsLoop_panicked]
  cases hall : (job.ScriptParts.all fun field =>
      (diagnosticsOf c conf job.JobName field).all (lineInRange (c.Concat field.2).1)) with
  | false => rfl
  | true =>
    have := List.all_eq_true.1 (List.all_eq_true.1 hall field hfield) f hf
    rw [hnot] at this
    cases this

/-! ## Claims about one diagnostic inside a run -/

/-- C1: for a diagnostic `f` returned for a script field whose position index, as returned
by `Concat` for that same field, is `lines`, if `1 ≤ f.Line ≤ len(lines)` then the finding
built for `f` has the line `lines[f.Line-1].Node.Line` of that very index. In every run that
returns findings it is among them once its goroutine has sent it, which is so whenever no
diagnostic line of the run is out of range; and every finding a run returns has its line from
the position index of its own field. -/
theorem run_finding_line (c : Collaborators) (i : CheckInput)
    (job : JobWithScripts) (key : String) (parts : List LineNode)
    (result : shellcheck.Result) (f : shellcheck.Finding)
    (hjob : job ∈ i.Scripts) (hfield : (key, parts) ∈ job.ScriptParts)
    (hres : c.AnalyzeSnippet job.JobName key (c.Concat parts).2
      i.Configuration.ShellcheckFlags = .ok result)
    (hf : f ∈ result.Findings) (h1 : 1 ≤ f.Line)
    (h2 : f.Line ≤ ((c.Concat parts).1.length : Int)) :
    ∃ l cf, (c.Concat parts).1[(f.Line - 1).toNat]? = some l ∧
      newCheckFinding c i.Configuration job.JobName key (c.Concat parts).1 f = some cf ∧
      cf.Line = l.Node.Line ∧
      (∀ s fs ev, Run c s i = some ⟨some fs, none, ev⟩ →
        cf ∈ (jobTask c i.Configuration job).sent → cf ∈ fs) ∧
      (∀ e s, c.memexecNew = .ok e → linesInRange c i.Configuration i.Scripts = true →
        cf ∈ (jobTask c i.Configuration job).sent ∧
        ∃ fs ev, Run c s i = some ⟨some fs, none, ev⟩ ∧ cf ∈ fs) ∧
      (∀ s fs ev, Run c s i = some ⟨some fs, none, ev⟩ →
        ∀ cf' ∈ fs, FromOwnIndex c i.Configuration i.Scripts cf') := by
  have hsome := newCheckFinding_isSome c i.Configuration job.JobName key (c.Concat parts).1 f
  rw [lineInRange, decide_eq_true ⟨h1, h2⟩] at hsome
  obtain ⟨cf, hcf⟩ := Option.isSome_iff_exists.1 hsome
  obtain ⟨l, hl, hcfeq⟩ := newCheckFinding_eq_some hcf
  have hl2 : (c.Concat parts).1[(f.Line - 1).toNat]? = some l := by
    unfold goIndex at hl
    rwa [if_neg (by omega)] at hl
  refine ⟨l, cf, hl2, hcf, by rw [hcfeq], ?_, ?_, ?_⟩
  · intro s fs ev hrun hsent
    exact mem_run_of_sent hrun hjob hsent
  · intro e s hinit hrange
    have hmem : cf ∈ jobFindings c i.Configuration job :=
      List.mem_flatMap.2 ⟨(key, parts), hfield, mem_fieldFindings hres hf hcf⟩
    have hjr : linesInRange c i.Configuration [job] = true := by
      simp only [linesInRange, List.all_eq_true] at hrange ⊢
      intro j hj
      rw [List.mem_singleton.1 hj]
      exact hrange job hjob
    have hsent := launch_sent_of_inRange hjr
    simp only [launch, List.map_cons, List.map_nil, List.cons.injEq, and_true] at hsent
    obtain ⟨ev, hev⟩ := run_returns_of_inRange hinit s i hrange
    refine ⟨by rw [hsent]; exact hmem, _, ev, hev, ?_⟩
    exact mem_fanIn_jobFindings s.order hjob hfield (mem_fieldFindings hres hf hcf)
  · intro s fs ev hrun cf' hcf'
    exact run_findings_fromOwnIndex hrun hcf'

/-- C1 on the spec scenario: line 1 of the `script` of job `build` is source line 10. -/
theorem run_finding_line_witness :
    ∃ l cf, (sampleTool.Concat [⟨10, "echo $X"⟩, ⟨11, "ls -l"⟩]).1[((1 : Int) - 1).toNat]? =
        some l ∧
      newCheckFinding sampleTool sampleConf "build" "script"
        (sampleTool.Concat [⟨10, "echo $X"⟩, ⟨11, "ls -l"⟩]).1
        ⟨"warning", 2086, 1, "Double quote to prevent globbing"⟩ = some cf ∧
      cf.Line = l.Node.Line ∧
      (∀ s fs ev, Run sampleTool s ⟨[sampleLint, sampleBuild], sampleConf⟩ =
          some ⟨some fs, none, ev⟩ →
        cf ∈ (jobTask sampleTool sampleConf sampleBuild).sent → cf ∈ fs) ∧
      (∀ e s, sampleTool.memexecNew = .ok e →
        linesInRange sampleTool sampleConf [sampleLint, sampleBuild] = true →
        cf ∈ (jobTask sampleTool sampleConf sampleBuild).sent ∧
        ∃ fs ev, Run sampleTool s ⟨[sampleLint, sampleBuild], sampleConf⟩ =
          some ⟨some fs, none, ev⟩ ∧ cf ∈ fs) ∧
      (∀ s fs ev, Run sampleTool s ⟨[sampleLint, sampleBuild], sampleConf⟩ =
          some ⟨some fs, none, ev⟩ →
        ∀ cf' ∈ fs, FromOwnIndex sampleTool sampleConf [sampleLint, sampleBuild] cf') :=
  run_finding_line sampleTool ⟨[sampleLint, sampleBuild], sampleConf⟩ sampleBuild
    "script" [⟨10, "echo $X"⟩, ⟨11, "ls -l"⟩]
    ⟨[⟨"warning", 2086, 1, "Double quote to prevent globbing"⟩]⟩
    ⟨"warning", 2086, 1, "Double quote to prevent globbing"⟩
    (by decide) (by decide) rfl (by decide) (by decide) (by decide)

/-- C4: a diagnostic whose line is 0, negative or greater than the length of the position
index of its field yields no finding: building it panics (no clamping to the first or last
entry). The loop over the diagnostics stops there, having sent at most the findings of the
diagnostics before it, and the goroutine ends by that panic. The process then ends without
`Run` returning when the runtime is first; and every finding that a run returns was built for
a diagnostic whose line lies within the position index of its own field. -/
theorem out_of_range_line_panics (c : Collaborators) (i : CheckInput)
    (e : shellcheck.Exec) (job : JobWithScripts) (key : String) (parts : List LineNode)
    (result : shellcheck.Result) (f : shellcheck.Finding)
    (hinit : c.memexecNew = .ok e)
    (hjob : job ∈ i.Scripts) (hfield : (key, parts) ∈ job.ScriptParts)
    (hres : c.AnalyzeSnippet job.JobName key (c.Concat parts).2
      i.Configuration.ShellcheckFlags = .ok result)
    (hf : f ∈ result.Findings)
    (hout : f.Line ≤ 0 ∨ ((c.Concat parts).1.length : Int) < f.Line) :
    newCheckFinding c i.Configuration job.JobName key (c.Concat parts).1 f = none ∧
      (∀ before after, result.Findings = before ++ f :: after →
        ((sendFindings c i.Configuration job.JobName key (c.Concat parts).1
            result.Findings).1 <+:
          (sendFindings c i.Configuration job.JobName key (c.Concat parts).1 before).1) ∧
        (sendFindings c i.Configuration job.JobName key (c.Concat parts).1
          result.Findings).2 = true) ∧
      (jobTask c i.Configuration job).panicked = true ∧
      (∀ order, Run c ⟨order, true⟩ i = none) ∧
      (∀ s fs ev, Run c s i = some ⟨some fs, none, ev⟩ →
        ∀ cf ∈ fs, FromOwnIndex c i.Configuration i.Scripts cf) := by
  have hnot : lineInRange (c.Concat parts).1 f = false := by
    rw [lineInRange]
    exact decide_eq_false (by omega)
  have hnone := (newCheckFinding_eq_none_iff c i.Configuration job.JobName key
    (c.Concat parts).1 f).2 hnot
  have hd : f ∈ diagnosticsOf c i.Configuration job.JobName (key, parts) := by
    simp only [diagnosticsOf, hres]
    exact hf
  refine ⟨hnone, ?_, jobTask_panicked_of_out_of_range hfield hd hnot, ?_, ?_⟩
  · intro before after hsplit
    rw [hsplit]
    exact sendFindings_stops_at hnone before after
  · intro order
    apply run_exitFirst_of_not_inRange hinit
    cases hr : linesInRange c i.Configuration i.Scripts with
    | false => rfl
    | true =>
      have := lineInRange_of_linesInRange hr hjob hfield hd
      rw [hnot] at this
      cases this
  · intro s fs ev hrun cf hcf
    exact run_findings_fromOwnIndex hrun hcf

/-- C4 on the job `broken`, whose one diagnostic has line 0. -/
theorem out_of_range_line_panics_witness :
    newCheckFinding sampleTool sampleConf "broken" "script"
        (sampleTool.Concat [⟨30, "if"⟩]).1 ⟨"error", 1000, 0, "Parsing stopped here"⟩ = none ∧
      (∀ before after,
        [(⟨"error", 1000, 0, "Parsing stopped here"⟩ : shellcheck.Finding)] =
          before ++ ⟨"error", 1000, 0, "Parsing stopped here"⟩ :: after →
        ((sendFindings sampleTool sampleConf "broken" "script"
            (sampleTool.Concat [⟨30, "if"⟩]).1
            [⟨"error", 1000, 0, "Parsing stopped here"⟩]).1 <+:
          (sendFindings sampleTool sampleConf "broken" "script"
            (sampleTool.Concat [⟨30, "if"⟩]).1 before).1) ∧
        (sendFindings sampleTool sampleConf "broken" "script"
          (sampleTool.Concat [⟨30, "if"⟩]).1
          [⟨"error", 1000, 0, "Parsing stopped here"⟩]).2 = true) ∧
      (jobTask sampleTool sampleConf sampleBroken).panicked = true ∧
      (∀ order, Run sampleTool ⟨order, true⟩ ⟨[sampleLint, sampleBroken], sampleConf⟩ = none) ∧
      (∀ s fs ev, Run sampleTool s ⟨[sampleLint, sampleBroken], sampleConf⟩ =
          some ⟨some fs, none, ev⟩ →
        ∀ cf ∈ fs, FromOwnIndex sampleTool sampleConf [sampleLint, sampleBroken] cf) :=
  out_of_range_line_panics sampleTool ⟨[sampleLint, sampleBroken], sampleConf⟩ ()
    sampleBroken "script" [⟨30, "if"⟩] ⟨[⟨"error", 1000, 0, "Parsing stopped here"⟩]⟩
    ⟨"error", 1000, 0, "Parsing stopped here"⟩
    rfl (by decide) (by decide) rfl (by decide) (by decide)

/-! ## When the run returns, and what -/

theorem fieldFindings_of_not_ok {c : Collaborators} {conf : Configuration} {jobName : String}
    {field : String × List LineNode} (h : analysisOk c conf jobName field = false) :
    fieldFindings c conf jobName field = [] := by
  unfold analysisOk at h
  cases ha : c.AnalyzeSnippet jobName field.1 (c.Concat field.2).2 conf.ShellcheckFlags with
  | error err => exact fieldFindings_of_error ha
  | ok result => rw [ha] at h; cases h

theorem diagnosticsOf_of_not_ok {c : Collaborators} {conf : Configuration} {jobName : String}
    {field : String × List LineNode} (h : analysisOk c conf jobName field = false) :
    diagnosticsOf c conf jobName field = [] := by
  unfold analysisOk at h
  unfold diagnosticsOf
  cases ha : c.AnalyzeSnippet jobName field.1 (c.Concat field.2).2 conf.ShellcheckFlags with
  | error err => rfl
  | ok result => rw [ha] at h; cases h

/-- C7 as stated fails: the binary loads, yet the run over the jobs `lint` and `broken`
returns neither an error nor findings when the panic on the line-0 diagnostic of `broken` ends
the process first. -/
theorem run_may_panic_after_init :
    shellcheck.NewShellChecker sampleTool.memexecNew = .ok ⟨()⟩ ∧
      Run sampleTool ⟨[], true⟩ ⟨[sampleLint, sampleBroken], sampleConf⟩ = none :=
  ⟨rfl, by decide⟩

/-- C7 amended: `Run` returns a non-nil error exactly when `NewShellChecker` fails, and then
it returns nil findings and analyses nothing; whenever it returns a nil error its findings list
is non-nil. When the checker starts and every diagnostic line lies within the position index
of its field, `Run` returns a nil error and a non-nil findings list, which is empty when every
analysis fails. When the checker starts and some diagnostic line lies outside, a goroutine
panics: the process ends without `Run` returning when the runtime is first, and otherwise
`Run` still returns a nil error and a non-nil findings list. -/
theorem run_error_iff_init_failure (c : Collaborators) (s : Schedule) (i : CheckInput) :
    (∀ err, c.memexecNew = .error err → Run c s i = some ⟨none, some err, []⟩) ∧
    (∀ e, c.memexecNew = .ok e →
      (linesInRange c i.Configuration i.Scripts = true →
        ∃ fs ev, Run c s i = some ⟨some fs, none, ev⟩) ∧
      (linesInRange c i.Configuration i.Scripts = false →
        Run c ⟨s.order, true⟩ i = none ∧
        ∃ fs ev, Run c ⟨s.order, false⟩ i = some ⟨some fs, none, ev⟩) ∧
      ((∀ job ∈ i.Scripts, ∀ field ∈ job.ScriptParts,
          analysisOk c i.Configuration job.JobName field = false) →
        ∃ ev, Run c s i = some ⟨some [], none, ev⟩)) ∧
    (∀ r, Run c s i = some r →
      (r.err ≠ none ↔ ∃ err, c.memexecNew = .error err) ∧
      (r.err = none → r.findings ≠ none)) := by
  refine ⟨fun err hinit => run_of_init_error hinit s i, fun e hinit => ⟨?_, ?_, ?_⟩, ?_⟩
  · intro hrange
    obtain ⟨ev, hev⟩ := run_returns_of_inRange hinit s i hrange
    exact ⟨_, ev, hev⟩
  · intro hrange
    exact ⟨run_exitFirst_of_not_inRange hinit s.order i hrange, _, _,
      run_returns_of_not_exitFirst hinit s.order i⟩
  · intro hall
    have hrange : linesInRange c i.Configuration i.Scripts = true := by
      simp only [linesInRange, List.all_eq_true]
      intro job hjob field hfield f hf
      rw [diagnosticsOf_of_not_ok (hall job hjob field hfield)] at hf
      cases hf
    obtain ⟨ev, hev⟩ := run_returns_of_inRange hinit s i hrange
    have hnil : fanIn s.order (i.Scripts.map (jobFindings c i.Configuration)) = [] := by
      apply List.eq_nil_iff_forall_not_mem.2
      intro cf hcf
      have hcf2 := (fanIn_perm s.order _).mem_iff.1 hcf
      obtain ⟨l, hl, hcfl⟩ := List.mem_flatten.1 hcf2
      obtain ⟨job, hjob, rfl⟩ := List.mem_map.1 hl
      obtain ⟨field, hfield, hcff⟩ := List.mem_flatMap.1 hcfl
      rw [fieldFindings_of_not_ok (hall job hjob field hfield)] at hcff
      cases hcff
    rw [hnil] at hev
    exact ⟨ev, hev⟩
  · intro r hr
    cases hinit : c.memexecNew with
    | error err =>
      rw [run_of_init_error hinit] at hr
      simp only [Option.some.injEq] at hr
      subst hr
      simp
    | ok e =>
      rw [run_of_init_ok hinit] at hr
      split at hr
      · cases hr
      · simp only [Option.some.injEq] at hr
        subst hr
        simp

/-- C7 amended, on sample runs: the binary does not load; it loads and all lines are in range;
it loads and every analysis fails; it loads and a line is out of range. -/
theorem run_error_iff_init_failure_witness :
    Run sampleToolDown ⟨[], true⟩ ⟨[sampleLint, sampleBuild], sampleConf⟩ =
        some ⟨none, some "memexec: cannot load", []⟩ ∧
      (∃ fs ev, Run sampleTool ⟨[], true⟩ ⟨[sampleLint, sampleBuild], sampleConf⟩ =
        some ⟨some fs, none, ev⟩) ∧
      (∃ ev, Run sampleTool ⟨[], true⟩ ⟨[⟨"a", [("before_script", [⟨3, "x"⟩])]⟩], sampleConf⟩ =
        some ⟨some [], none, ev⟩) ∧
      (Run sampleTool ⟨[], true⟩ ⟨[sampleLint, sampleBroken], sampleConf⟩ = none ∧
        ∃ fs ev, Run sampleTool ⟨[], false⟩ ⟨[sampleLint, sampleBroken], sampleConf⟩ =
          some ⟨some fs, none, ev⟩) :=
  ⟨(run_error_iff_init_failure sampleToolDown ⟨[], true⟩
      ⟨[sampleLint, sampleBuild], sampleConf⟩).1 "memexec: cannot load" rfl,
   ((run_error_iff_init_failure sampleTool ⟨[], true⟩
      ⟨[sampleLint, sampleBuild], sampleConf⟩).2.1 () rfl).1 (by decide),
   ((run_error_iff_init_failure sampleTool ⟨[], true⟩
      ⟨[⟨"a", [("before_script", [⟨3, "x"⟩])]⟩], sampleConf⟩).2.1 () rfl).2.2 (by decide),
   ((run_error_iff_init_failure sampleTool ⟨[], true⟩
      ⟨[sampleLint, sampleBroken], sampleConf⟩).2.1 () rfl).2.1 (by decide)⟩

theorem map_some_filterMap_id {α : Type} (l : List (Option α))
    (h : l.all Option.isSome = true) : (l.filterMap id).map some = l := by
  induction l with
  | nil => rfl
  | cons x xs ih =>
    simp only [List.all_cons, Bool.and_eq_true] at h
    cases x with
    | none => simp at h
    | some a => simp [ih h.2]

theorem fieldFindings_map_some {c : Collaborators} {conf : Configuration} {jobName : String}
    {field : String × List LineNode}
    (h : (diagnosticsOf c conf jobName field).all (lineInRange (c.Concat field.2).1) = true) :
    (fieldFindings c conf jobName field).map some = translated c conf jobName field := by
  apply map_some_filterMap_id
  simp only [translated, List.all_eq_true, List.mem_map]
  rintro x ⟨f, hf, rfl⟩
  rw [newCheckFinding_isSome]
  exact List.all_eq_true.1 h f hf

theorem flatMap_fieldFindings_map_some {c : Collaborators} {conf : Configuration}
    {jobName : String} (fields : List (String × List LineNode))
    (h : ∀ field ∈ fields,
      (diagnosticsOf c conf jobName field).all (lineInRange (c.Concat field.2).1) = true) :
    (fields.flatMap (fieldFindings c conf jobName)).map some =
      fields.flatMap (translated c conf jobName) := by
  induction fields with
  | nil => rfl
  | cons field rest ih =>
    simp only [List.flatMap_cons, List.map_append]
    rw [fieldFindings_map_some (h field (List.mem_cons_self _ _)),
      ih fun fld hfld => h fld (List.mem_cons_of_mem _ hfld)]

theorem flatten_jobFindings_map_some {c : Collaborators} {conf : Configuration}
    (jobs : List JobWithScripts) (h : linesInRange c conf jobs = true) :
    ((jobs.map (jobFindings c conf)).flatten).map some =
      jobs.flatMap fun job => job.ScriptParts.flatMap (translated c conf job.JobName) := by
  induction jobs with
  | nil => rfl
  | cons job rest ih =>
    simp only [linesInRange, List.all_cons, Bool.and_eq_true] at h
    have hrest : linesInRange c conf rest = true := h.2
    simp only [List.map_cons, List.flatten_cons, List.map_append, List.flatMap_cons]
    rw [ih hrest]
    congr 1
    exact flatMap_fieldFindings_map_some job.ScriptParts (List.all_eq_true.1 h.1)

theorem length_translated_eq (c : Collaborators) (conf : Configuration)
    (jobs : List JobWithScripts) :
    (jobs.flatMap fun job => job.ScriptParts.flatMap (translated c conf job.JobName)).length =
      (jobs.flatMap fun job =>
        job.ScriptParts.flatMap (diagnosticsOf c conf job.JobName)).length := by
  induction jobs with
  | nil => rfl
  | cons job rest ih =>
    simp only [List.flatMap_cons, List.length_append, ih, Nat.add_right_cancel_iff]
    generalize job.ScriptParts = fields
    induction fields with
    | nil => rfl
    | cons field more ihf =>
      simp only [List.flatMap_cons, List.length_append, ihf, translated, List.length_map]

/-- C8 as stated fails: the analysis of the `script` of job `broken` succeeds and returns
one diagnostic, yet no run returns a finding for it: the run either ends with the process or
returns no finding at all. -/
theorem run_drops_out_of_range_diagnostic :
    diagnosticsOf sampleTool sampleConf "broken" ("script", [⟨30, "if"⟩]) =
        [⟨"error", 1000, 0, "Parsing stopped here"⟩] ∧
      analysisOk sampleTool sampleConf "broken" ("script", [⟨30, "if"⟩]) = true ∧
      Run sampleTool ⟨[], true⟩ ⟨[sampleBroken], sampleConf⟩ = none ∧
      Run sampleTool ⟨[], false⟩ ⟨[sampleBroken], sampleConf⟩ =
        some ⟨some [], none, [.analyze "broken" "script"]⟩ := by
  decide

/-- C8 amended: when the checker starts and every diagnostic line lies within the position
index of its field, `Run` returns findings that are, up to order, exactly the translations of
the diagnostics of all successful analyses (one finding per diagnostic, none dropped or
duplicated, so their number is the sum of the diagnostic counts), and the findings of each one
analysis occur in the result in the order in which the diagnostics were returned. -/
theorem run_sends_one_finding_per_diagnostic (c : Collaborators) (s : Schedule)
    (i : CheckInput) (e : shellcheck.Exec) (hinit : c.memexecNew = .ok e)
    (hrange : linesInRange c i.Configuration i.Scripts = true) :
    ∃ fs ev, Run c s i = some ⟨some fs, none, ev⟩ ∧
      fs.length = (i.Scripts.flatMap fun job =>
        job.ScriptParts.flatMap (diagnosticsOf c i.Configuration job.JobName)).length ∧
      (fs.map some).Perm (i.Scripts.flatMap fun job =>
        job.ScriptParts.flatMap (translated c i.Configuration job.JobName)) ∧
      ∀ job ∈ i.Scripts, ∀ field ∈ job.ScriptParts,
        ∃ cfs : List CheckFinding, cfs.map some = translated c i.Configuration job.JobName field ∧
          cfs.Sublist fs := by
  obtain ⟨ev, hev⟩ := run_returns_of_inRange hinit s i hrange
  have hperm : ((fanIn s.order (i.Scripts.map (jobFindings c i.Configuration))).map some).Perm
      (i.Scripts.flatMap fun job =>
        job.ScriptParts.flatMap (translated c i.Configuration job.JobName)) := by
    rw [← flatten_jobFindings_map_some i.Scripts hrange]
    exact (fanIn_perm s.order _).map some
  refine ⟨_, ev, hev, ?_, hperm, ?_⟩
  · rw [← length_translated_eq, ← hperm.length_eq, List.length_map]
  · intro job hjob field hfield
    refine ⟨fieldFindings c i.Configuration job.JobName field, ?_, ?_⟩
    · apply fieldFindings_map_some
      simp only [linesInRange, List.all_eq_true] at hrange
      exact List.all_eq_true.2 (hrange job hjob field hfield)
    · have h1 : (fieldFindings c i.Configuration job.JobName field).Sublist
          (jobFindings c i.Configuration job) := by
        unfold jobFindings
        rw [List.flatMap_def]
        exact List.sublist_flatten_of_mem (List.mem_map_of_mem _ hfield)
      exact h1.trans (fanIn_sublist s.order _ _ (List.mem_map_of_mem _ hjob))

/-- C8 amended, on the jobs `test`, `lint` and `build` under a schedule that interleaves them. -/
theorem run_sends_one_finding_per_diagnostic_witness :
    ∃ fs ev, Run sampleTool ⟨[2, 0, 0], true⟩
        ⟨[sampleTest, sampleLint, sampleBuild], sampleConf⟩ = some ⟨some fs, none, ev⟩ ∧
      fs.length = ([sampleTest, sampleLint, sampleBuild].flatMap fun job =>
        job.ScriptParts.flatMap (diagnosticsOf sampleTool sampleConf job.JobName)).length ∧
      (fs.map some).Perm ([sampleTest, sampleLint, sampleBuild].flatMap fun job =>
        job.ScriptParts.flatMap (translated sampleTool sampleConf job.JobName)) ∧
      ∀ job ∈ [sampleTest, sampleLint, sampleBuild], ∀ field ∈ job.ScriptParts,
        ∃ cfs : List CheckFinding,
          cfs.map some = translated sampleTool sampleConf job.JobName field ∧
          cfs.Sublist fs :=
  run_sends_one_finding_per_diagnostic sampleTool ⟨[2, 0, 0], true⟩
    ⟨[sampleTest, sampleLint, sampleBuild], sampleConf⟩ () rfl (by decide)

/-! ## Failure isolation -/

theorem linesInRange_append (c : Collaborators) (conf : Configuration)
    (xs ys : List JobWithScripts) :
    linesInRange c conf (xs ++ ys) = (linesInRange c conf xs && linesInRange c conf ys) := by
  simp only [linesInRange, List.all_append]

theorem linesInRange_cons (c : Collaborators) (conf : Configuration)
    (job : JobWithScripts) (rest : List JobWithScripts) :
    linesInRange c conf (job :: rest) =
      (linesInRange c conf [job] && linesInRange c conf rest) := by
  simp only [linesInRange, List.all_cons, List.all_nil, Bool.and_true]

theorem linesInRange_remove_field {c : Collaborators} {conf : Configuration}
    {name : String} {fpre fpost : List (String × List LineNode)} {F : String × List LineNode}
    (h : linesInRange c conf [⟨name, fpre ++ F :: fpost⟩] = true) :
    linesInRange c conf [⟨name, fpre ++ fpost⟩] = true := by
  simp only [linesInRange, List.all_cons, List.all_nil, Bool.and_true, List.all_eq_true] at h ⊢
  intro field hfield f hf
  refine h field ?_ f hf
  rcases List.mem_append.1 hfield with h1 | h1
  · exact List.mem_append_left _ h1
  · exact List.mem_append_right _ (List.mem_cons_of_mem _ h1)

theorem jobFindings_remove_failed_field {c : Collaborators} {conf : Configuration}
    {name : String} {F : String × List LineNode} {err : GoError}
    (hfail : c.AnalyzeSnippet name F.1 (c.Concat F.2).2 conf.ShellcheckFlags = .error err)
    (fpre fpost : List (String × List LineNode)) :
    jobFindings c conf ⟨name, fpre ++ F :: fpost⟩ = jobFindings c conf ⟨name, fpre ++ fpost⟩ := by
  simp only [jobFindings, List.flatMap_append, List.flatMap_cons,
    fieldFindings_of_error hfail, List.nil_append]

/-- C2 as stated fails: the analysis of the `before_script` of job `build` fails, yet the
findings returned contain the finding of the `script` of that same job. -/
theorem run_keeps_findings_of_partly_failed_job :
    analysisOk sampleTool sampleConf "build" ("before_script", [⟨8, "set -e"⟩]) = false ∧
      ("before_script", [⟨8, "set -e"⟩]) ∈ sampleBuild.ScriptParts ∧
      Run sampleTool ⟨[], true⟩ ⟨[sampleBuild], sampleConf⟩ =
        some ⟨some [sampleFinding], none,
          [.analyze "build" "before_script", .warn "build", .analyze "build" "script"]⟩ := by
  decide

/-- C2 amended: failure isolation is per script field. If the checker starts, no diagnostic
line is out of range (so no goroutine panics) and the analysis of the script field `F` of
job `B` fails, then the run returns findings, the run in which `F` is absent from `B` returns
the same findings (the failed field contributes nothing, the other fields of `B` still
contribute theirs), and these findings are, up to order, those that `B` without `F` sends
together with exactly the findings returned when `B` is absent. -/
theorem run_isolates_failed_fields (c : Collaborators) (s s' : Schedule)
    (conf : Configuration) (pre post : List JobWithScripts) (name : String)
    (fpre fpost : List (String × List LineNode)) (F : String × List LineNode)
    (err : GoError) (e : shellcheck.Exec) (hinit : c.memexecNew = .ok e)
    (hfail : c.AnalyzeSnippet name F.1 (c.Concat F.2).2 conf.ShellcheckFlags = .error err)
    (hrange : linesInRange c conf (pre ++ ⟨name, fpre ++ F :: fpost⟩ :: post) = true) :
    ∃ fs fsRest ev ev' ev'',
      Run c s ⟨pre ++ ⟨name, fpre ++ F :: fpost⟩ :: post, conf⟩ = some ⟨some fs, none, ev⟩ ∧
      Run c s ⟨pre ++ ⟨name, fpre ++ fpost⟩ :: post, conf⟩ = some ⟨some fs, none, ev'⟩ ∧
      Run c s' ⟨pre ++ post, conf⟩ = some ⟨some fsRest, none, ev''⟩ ∧
      (jobTask c conf ⟨name, fpre ++ fpost⟩).panicked = false ∧
      fs.Perm ((jobTask c conf ⟨name, fpre ++ fpost⟩).sent ++ fsRest) := by
  have hrange0 := hrange
  rw [linesInRange_append, linesInRange_cons, Bool.and_eq_true, Bool.and_eq_true] at hrange
  obtain ⟨hpre, hB, hpost⟩ := hrange
  have hB' := linesInRange_remove_field hB
  have hjob := jobFindings_remove_failed_field hfail fpre fpost
  have hr1 : linesInRange c conf (pre ++ ⟨name, fpre ++ fpost⟩ :: post) = true := by
    rw [linesInRange_append, linesInRange_cons, hpre, hB', hpost]
    rfl
  have hr2 : linesInRange c conf (pre ++ post) = true := by
    rw [linesInRange_append, hpre, hpost]
    rfl
  obtain ⟨ev, hev⟩ := run_returns_of_inRange hinit s
    ⟨pre ++ ⟨name, fpre ++ F :: fpost⟩ :: post, conf⟩ hrange0
  obtain ⟨ev', hev'⟩ := run_returns_of_inRange hinit s
    ⟨pre ++ ⟨name, fpre ++ fpost⟩ :: post, conf⟩ hr1
  obtain ⟨ev'', hev''⟩ := run_returns_of_inRange hinit s' ⟨pre ++ post, conf⟩ hr2
  have hp : (jobTask c conf ⟨name, fpre ++ fpost⟩).panicked = false := by
    have h1 := launch_any_panicked c conf [⟨name, fpre ++ fpost⟩]
    rw [hB'] at h1
    simpa [launch] using h1
  have hsent : (jobTask c conf ⟨name, fpre ++ fpost⟩).sent =
      jobFindings c conf ⟨name, fpre ++ F :: fpost⟩ := by
    rw [hjob]
    exact scriptPartsLoop_sent_of_not_panicked hp
  refine ⟨_, _, ev, ev', ev'', hev, ?_, hev'', hp, ?_⟩
  · rw [hev']
    simp only [List.map_append, List.map_cons, hjob]
  · rw [hsent]
    refine (fanIn_perm s.order _).trans ?_
    refine List.Perm.trans ?_ (List.Perm.append_left _ (fanIn_perm s'.order _).symm)
    simp only [List.map_append, List.map_cons, List.flatten_append, List.flatten_cons]
    exact List.perm_append_comm_assoc _ _ _

/-- C2 amended, on the jobs `lint`, `build` and `test`, where the `before_script` of `build`
fails. -/
theorem run_isolates_failed_fields_witness :
    ∃ fs fsRest ev ev' ev'',
      Run sampleTool ⟨[1, 2], true⟩
        ⟨[sampleLint] ++ ⟨"build", [] ++ ("before_script", [⟨8, "set -e"⟩]) ::
          [("script", [⟨10, "echo $X"⟩, ⟨11, "ls -l"⟩])]⟩ :: [sampleTest], sampleConf⟩ =
        some ⟨some fs, none, ev⟩ ∧
      Run sampleTool ⟨[1, 2], true⟩
        ⟨[sampleLint] ++ ⟨"build", [] ++ [("script", [⟨10, "echo $X"⟩, ⟨11, "ls -l"⟩])]⟩ ::
          [sampleTest], sampleConf⟩ = some ⟨some fs, none, ev'⟩ ∧
      Run sampleTool ⟨[], false⟩ ⟨[sampleLint] ++ [sampleTest], sampleConf⟩ =
        some ⟨some fsRest, none, ev''⟩ ∧
      (jobTask sampleTool sampleConf
        ⟨"build", [] ++ [("script", [⟨10, "echo $X"⟩, ⟨11, "ls -l"⟩])]⟩).panicked = false ∧
      fs.Perm ((jobTask sampleTool sampleConf
        ⟨"build", [] ++ [("script", [⟨10, "echo $X"⟩, ⟨11, "ls -l"⟩])]⟩).sent ++ fsRest) :=
  run_isolates_failed_fields sampleTool ⟨[1, 2], true⟩ ⟨[], false⟩ sampleConf [sampleLint]
    [sampleTest] "build" [] [("script", [⟨10, "echo $X"⟩, ⟨11, "ls -l"⟩])]
    ("before_script", [⟨8, "set -e"⟩]) "exit status 2" () rfl rfl (by decide)

end GitlabCiVerify
